import Mathlib

/-!
Shallow embedding of the `RecordDB<T>` record store (src/RecordDB.h).

A database file is modelled as `Option (List Nat)`: `none` means the file
does not exist, `some bs` is its byte content (each byte a `Nat`, real bytes
are `< 256`).  The payload type `T` is modelled by its raw byte image of
fixed size `tsize`; a record slot is `32` key bytes, `tsize` payload bytes
and one CRC byte, `recSize tsize = tsize + 33` bytes in all.

Every loop `while (file.read(&rec, sizeof(Record)) == sizeof(Record))` is
embedded as a fuel-indexed structural recursion (fuel = remaining byte
count), reading `recSize` bytes per step and stopping on a short read.
-/

namespace RecordDB

abbrev Byte := Nat

/-- Size in bytes of one serialized `Record` slot: 32 key bytes,
`tsize` payload bytes, 1 CRC byte (`sizeof(Record)`). -/
def recSize (tsize : Nat) : Nat := tsize + 33

/-- The C string denoted by a byte buffer: its bytes up to (excluding) the
first NUL byte (`strcmp`/`strlen` semantics). -/
def cstr (bs : List Byte) : List Byte := bs.takeWhile (fun b => b != 0)

/-- Embeds C `strlen`. -/
def strlen (bs : List Byte) : Nat := (cstr bs).length

/-- The key of a slot: the C string held in its first 32 bytes (`rec.key`). -/
def slotKey (s : List Byte) : List Byte := cstr (s.take 32)

/-- The payload bytes of a slot (`rec.data`). -/
def slotData (tsize : Nat) (s : List Byte) : List Byte := (s.drop 32).take tsize

/-- The stored checksum byte of a slot (`rec.crc`, the slot's last byte). -/
def slotCrc (tsize : Nat) (s : List Byte) : Byte := s.getD (recSize tsize - 1) 0

/-- One shift step of the CRC-8 loop body:
`crc = (crc & 0x80) ? (crc << 1) ^ 0x07 : (crc << 1)` on a `uint8_t`. -/
def crcBit (c : Nat) : Nat :=
  if c &&& 0x80 ≠ 0 then ((c <<< 1) ^^^ 0x07) % 256 else (c <<< 1) % 256

/-- Absorbing one message byte: `crc ^= p[i]` followed by eight `crcBit`
steps (the inner `for (j = 0; j < 8; j++)` loop). -/
def crcByte (c b : Nat) : Nat := Nat.iterate crcBit 8 ((c ^^^ b) % 256)

/-- Running the CRC-8 of `computeCRC` over a byte sequence from state `c`. -/
def crcRun (c : Nat) (bs : List Byte) : Nat := bs.foldl crcByte c

/-- Embeds `RecordDB::computeCRC`: CRC-8 (init 0) over the first
`sizeof(Record) - 1` bytes of the slot, i.e. everything except the
trailing checksum byte. -/
def computeCRC (tsize : Nat) (s : List Byte) : Nat :=
  crcRun 0 (s.take (recSize tsize - 1))

/-- A slot passes the integrity check iff its recomputed CRC equals its
stored checksum byte (`computeCRC(&rec) == rec.crc`). -/
def slotValid (tsize : Nat) (s : List Byte) : Bool :=
  computeCRC tsize s == slotCrc tsize s

/-- Fuel-indexed record reader: repeatedly reads `recSize tsize` bytes;
a short read ends the scan, and any trailing fragment is discarded,
exactly as `file.read(...) == sizeof(Record)` fails on it. -/
def readSlotsAux (tsize : Nat) : Nat → List Byte → List (List Byte)
  | 0, _ => []
  | fuel + 1, bs =>
    if recSize tsize ≤ bs.length then
      bs.take (recSize tsize) :: readSlotsAux tsize fuel (bs.drop (recSize tsize))
    else []

/-- The sequence of complete slots of a file's byte content, in file order. -/
def readSlots (tsize : Nat) (bs : List Byte) : List (List Byte) :=
  readSlotsAux tsize bs.length bs

/-- The checksum-valid ("live") slots of a file, in file order. -/
def liveSlots (tsize : Nat) (bs : List Byte) : List (List Byte) :=
  (readSlots tsize bs).filter (slotValid tsize)

/-- The keys of the live slots, in file order. -/
def liveKeys (tsize : Nat) (bs : List Byte) : List (List Byte) :=
  (liveSlots tsize bs).map slotKey

/-- The 32-byte `rec.key` field produced by `memset(&rec, 0, ...)` followed
by `strlcpy(rec.key, key, 32)`: at most 31 bytes of the key's C string,
zero-padded to 32 bytes. -/
def keyField (k : List Byte) : List Byte :=
  (cstr k).take 31 ++ List.replicate (32 - min 31 (strlen k)) 0

/-- A raw byte image of length exactly `n`: `d` truncated or zero-padded.
`rec.data = data` copies exactly `sizeof(T)` bytes into the zeroed struct. -/
def padTo (n : Nat) (d : List Byte) : List Byte :=
  d.take n ++ List.replicate (n - d.length) 0

/-- The serialized record built by `insert`: zeroed struct, key copied,
payload copied, CRC computed over the non-checksum bytes. -/
def mkRecord (tsize : Nat) (k d : List Byte) : List Byte :=
  (keyField k ++ padTo tsize d) ++ [crcRun 0 (keyField k ++ padTo tsize d)]

/-- The scan loop of `RecordDB::query`: skip slots failing the CRC check,
return the payload of the first valid slot whose key C-string equals the
query key (`strcmp(rec.key, key) == 0`); end of data yields failure. -/
def queryLoopAux (tsize : Nat) (k : List Byte) : Nat → List Byte → Option (List Byte)
  | 0, _ => none
  | fuel + 1, bs =>
    if recSize tsize ≤ bs.length then
      if slotValid tsize (bs.take (recSize tsize)) then
        if slotKey (bs.take (recSize tsize)) == cstr k then
          some (slotData tsize (bs.take (recSize tsize)))
        else queryLoopAux tsize k fuel (bs.drop (recSize tsize))
      else queryLoopAux tsize k fuel (bs.drop (recSize tsize))
    else none

/-- Embeds `RecordDB::query` (result `some data` ↔ it returns `true` with
`data` written to the out parameter): `NULL` key or a missing file fails
before/at open, otherwise the file is scanned from the start. -/
def query (tsize : Nat) (key : Option (List Byte)) (f : Option (List Byte)) :
    Option (List Byte) :=
  match key, f with
  | none, _ => none
  | some _, none => none
  | some k, some bs => queryLoopAux tsize k bs.length bs

/-- Embeds `RecordDB::exists`: `query` into a discarded buffer. -/
def existsKey (tsize : Nat) (key : Option (List Byte)) (f : Option (List Byte)) : Bool :=
  (query tsize key f).isSome

/-- The scan loop of `RecordDB::remove`: returns (match found, bytes written
to `/temp.db`).  Invalid slots are skipped (never copied), matching slots
set `found` and are dropped, all other valid slots are copied in order. -/
def removeLoopAux (tsize : Nat) (k : List Byte) : Nat → List Byte → Bool × List Byte
  | 0, _ => (false, [])
  | fuel + 1, bs =>
    if recSize tsize ≤ bs.length then
      if slotValid tsize (bs.take (recSize tsize)) then
        if slotKey (bs.take (recSize tsize)) == cstr k then
          (true, (removeLoopAux tsize k fuel (bs.drop (recSize tsize))).2)
        else
          ((removeLoopAux tsize k fuel (bs.drop (recSize tsize))).1,
            bs.take (recSize tsize) ++ (removeLoopAux tsize k fuel (bs.drop (recSize tsize))).2)
      else removeLoopAux tsize k fuel (bs.drop (recSize tsize))
    else (false, [])

/-- Embeds `RecordDB::remove`: `NULL` key or unopenable (missing) source
file fails with the store unchanged; otherwise the file is streamed into
a temporary copy without the matching records, and the copy replaces the
original only if a match was found (else the original is untouched). -/
def remove (tsize : Nat) (key : Option (List Byte)) (f : Option (List Byte)) :
    Bool × Option (List Byte) :=
  match key, f with
  | none, f => (false, f)
  | some _, none => (false, none)
  | some k, some bs =>
    if (removeLoopAux tsize k bs.length bs).1 then
      (true, some (removeLoopAux tsize k bs.length bs).2)
    else (false, some bs)

/-- Embeds `RecordDB::insert` (success path of the append I/O): rejects a
`NULL` or over-long key before any I/O, otherwise first calls `remove key`
and then appends one freshly serialized record, creating the file if
absent. -/
def insert (tsize : Nat) (key : Option (List Byte)) (d : List Byte)
    (f : Option (List Byte)) : Bool × Option (List Byte) :=
  match key with
  | none => (false, f)
  | some k =>
    if 32 ≤ strlen k then (false, f)
    else
      (true, some (((remove tsize (some k) f).2.getD []) ++ mkRecord tsize k d))

/-- The scan loop of `RecordDB::count`: counts the checksum-valid slots. -/
def countLoopAux (tsize : Nat) : Nat → List Byte → Nat
  | 0, _ => 0
  | fuel + 1, bs =>
    if recSize tsize ≤ bs.length then
      if slotValid tsize (bs.take (recSize tsize)) then
        countLoopAux tsize fuel (bs.drop (recSize tsize)) + 1
      else countLoopAux tsize fuel (bs.drop (recSize tsize))
    else 0

/-- Embeds `RecordDB::count`: 0 for a missing file, else a full scan
counting valid slots. -/
def count (tsize : Nat) (f : Option (List Byte)) : Nat :=
  match f with
  | none => 0
  | some bs => countLoopAux tsize bs.length bs

/-- The scan loop of `RecordDB::selectAll`: the sequence of
`callback(rec.key, rec.data)` invocations, in order.  The callback receives
the key as a C string and the payload bytes. -/
def selectAllLoopAux (tsize : Nat) : Nat → List Byte → List (List Byte × List Byte)
  | 0, _ => []
  | fuel + 1, bs =>
    if recSize tsize ≤ bs.length then
      if slotValid tsize (bs.take (recSize tsize)) then
        (slotKey (bs.take (recSize tsize)), slotData tsize (bs.take (recSize tsize))) ::
          selectAllLoopAux tsize fuel (bs.drop (recSize tsize))
      else selectAllLoopAux tsize fuel (bs.drop (recSize tsize))
    else []

/-- Embeds `RecordDB::selectAll` as the list of visitor invocations it
performs: none for a missing file, else one full scan of the valid slots. -/
def selectAll (tsize : Nat) (f : Option (List Byte)) : List (List Byte × List Byte) :=
  match f with
  | none => []
  | some bs => selectAllLoopAux tsize bs.length bs

/-- Embeds `RecordDB::clear`: unconditionally deletes the file. -/
def clear (_f : Option (List Byte)) : Option (List Byte) := none

/-- The eight bits of a byte, most significant first (reference order for
the specification's CRC description). -/
def byteBits (b : Nat) : List Bool :=
  (List.range 8).map (fun j => b.testBit (7 - j))

/-- Reference CRC-8 bit step, written from the specification's description:
the 8-bit register shifts left one position; if the bit shifted out XOR the
incoming message bit is set, the register is reduced by the polynomial
x^8 + x^2 + x + 1, i.e. XORed with 0x07. -/
def crcSpecBit (c : Nat) (bit : Bool) : Nat :=
  if (c.testBit 7).xor bit then ((c <<< 1) ^^^ 0x07) % 256 else (c <<< 1) % 256

/-- Reference CRC-8 of the specification: polynomial 0x07, initial value 0,
computed bit-by-bit most-significant-bit-first over the given bytes. -/
def crc8_spec (bs : List Byte) : Nat :=
  ((bs.map byteBits).flatten).foldl crcSpecBit 0

/-- The top `k` bits of a byte, most significant first (generalizes
`byteBits`, which is `topBits 8`). -/
def topBits (k m : Nat) : List Bool :=
  (List.range k).map (fun j => m.testBit (7 - j))

/-- Explicit inverse of `crcBit` on eight-bit values, witnessing that the
CRC shift step is a bijection of the register state. -/
def crcBitInv (y : Nat) : Nat :=
  if y % 2 = 1 then (y ^^^ 0x07) / 2 + 128 else y / 2

/-- The file is absent or its byte length is a whole number of record
slots.  This holds for every file produced by uninterrupted operation. -/
def AlignedF (tsize : Nat) (f : Option (List Byte)) : Prop :=
  ∀ bs, f = some bs → bs.length % recSize tsize = 0

/-- The live (checksum-valid) records of the file have pairwise distinct
keys: at most one live record per key. -/
def UniqueLiveF (tsize : Nat) (f : Option (List Byte)) : Prop :=
  ∀ bs, f = some bs → (liveKeys tsize bs).Nodup

/-- The store-state invariant maintained by every operation. -/
def GoodF (tsize : Nat) (f : Option (List Byte)) : Prop :=
  AlignedF tsize f ∧ UniqueLiveF tsize f

/-- States of the store reachable from a never-used store (no file) by the
mutating operations of the component. -/
inductive Reachable (tsize : Nat) : Option (List Byte) → Prop where
  | empty : Reachable tsize none
  | insertStep (key : Option (List Byte)) (d : List Byte) {f} :
      Reachable tsize f → Reachable tsize (insert tsize key d f).2
  | removeStep (key : Option (List Byte)) {f} :
      Reachable tsize f → Reachable tsize (remove tsize key f).2
  | clearStep {f} : Reachable tsize f → Reachable tsize (clear f)

/-- Whether the store currently holds a live record with the given key. -/
def hasLiveKey (tsize : Nat) (key : Option (List Byte)) (f : Option (List Byte)) : Bool :=
  match key, f with
  | some k, some bs =>
    (readSlots tsize bs).any (fun s => slotValid tsize s && (slotKey s == cstr k))
  | _, _ => false

/-- A mutating call in an operation sequence: an `insert` with a key and a
payload, or an explicit `remove` with a key. -/
inductive Op where
  | ins : Option (List Byte) → List Byte → Op
  | rem : Option (List Byte) → Op

/-- Runs an operation sequence from a store state.  Returns the final
state together with three tallies: successful inserts whose key was not
live at the time of the call, successful inserts overall, and successful
explicit removes. -/
def runOps (tsize : Nat) : List Op → Option (List Byte) → Option (List Byte) × Nat × Nat × Nat
  | [], f => (f, 0, 0, 0)
  | Op.ins key d :: rest, f =>
    let r := insert tsize key d f
    let w := runOps tsize rest r.2
    (w.1,
      w.2.1 + (if r.1 && !hasLiveKey tsize key f then 1 else 0),
      w.2.2.1 + (if r.1 then 1 else 0),
      w.2.2.2)
  | Op.rem key :: rest, f =>
    let r := remove tsize key f
    let w := runOps tsize rest r.2
    (w.1, w.2.1, w.2.2.1, w.2.2.2 + (if r.1 then 1 else 0))

/-! ### Arithmetic facts about the CRC register -/

theorem xor_mod256 (x y : Nat) : (x ^^^ y) % 256 = (x % 256) ^^^ (y % 256) := by
  have h : (256 : Nat) = 2 ^ 8 := rfl
  rw [h]
  apply Nat.eq_of_testBit_eq
  intro i
  simp only [Nat.testBit_mod_two_pow, Nat.testBit_xor]
  by_cases hi : i < 8 <;> simp [hi]

theorem xor_shiftLeft_one (x y : Nat) : (x ^^^ y) <<< 1 = (x <<< 1) ^^^ (y <<< 1) := by
  apply Nat.eq_of_testBit_eq
  intro i
  simp only [Nat.testBit_shiftLeft, Nat.testBit_xor]
  by_cases hi : 1 ≤ i <;> simp [hi]

theorem and128_ne_zero (x : Nat) : (x &&& 128 ≠ 0) ↔ x.testBit 7 = true := by
  have h : (128 : Nat) = 2 ^ 7 := rfl
  rw [h]
  constructor
  · intro hne
    by_contra hbit
    refine hne (Nat.eq_of_testBit_eq fun i => ?_)
    rw [Nat.testBit_and, Nat.testBit_two_pow, Nat.zero_testBit]
    rcases eq_or_ne i 7 with rfl | hi
    · simp [Bool.eq_false_iff.mpr hbit]
    · simp [Ne.symm hi]
  · intro hbit hzero
    have hb : (x &&& 2 ^ 7).testBit 7 = true := by
      rw [Nat.testBit_and, Nat.testBit_two_pow]
      simp [hbit]
    rw [hzero, Nat.zero_testBit] at hb
    exact Bool.false_ne_true hb

theorem crcBit_lt (c : Nat) : crcBit c < 256 := by
  unfold crcBit
  split <;> exact Nat.mod_lt _ (by norm_num)

theorem crcByte_lt (c b : Nat) : crcByte c b < 256 := by
  unfold crcByte
  rw [Function.iterate_succ_apply']
  exact crcBit_lt _

theorem crcRun_lt (bs : List Byte) : ∀ c : Nat, c < 256 → crcRun c bs < 256 := by
  induction bs with
  | nil => exact fun c hc => hc
  | cons b rest ih => exact fun c _ => ih _ (crcByte_lt c b)

/-! ### The implementation CRC agrees with the specification CRC -/

theorem crcBit_step (t m : Nat) :
    crcBit (t ^^^ m) = crcSpecBit t (m.testBit 7) ^^^ ((m <<< 1) % 256) := by
  unfold crcBit crcSpecBit
  by_cases hb : (t ^^^ m).testBit 7 = true
  · rw [if_pos ((and128_ne_zero _).mpr hb)]
    rw [Nat.testBit_xor] at hb
    rw [if_pos hb]
    rw [xor_shiftLeft_one, Nat.xor_assoc, Nat.xor_comm (m <<< 1) 7, ← Nat.xor_assoc]
    rw [xor_mod256 ((t <<< 1) ^^^ 7) (m <<< 1)]
  · rw [if_neg (fun hc => hb ((and128_ne_zero _).mp hc))]
    rw [Nat.testBit_xor] at hb
    rw [if_neg hb]
    rw [xor_shiftLeft_one, xor_mod256]

theorem crc_chain : ∀ k : Nat, k ≤ 8 → ∀ t m : Nat, m < 256 →
    Nat.iterate crcBit k (t ^^^ m) =
      (topBits k m).foldl crcSpecBit t ^^^ ((m <<< k) % 256) := by
  intro k
  induction k with
  | zero =>
    intro _ t m hm
    simp [topBits, Nat.mod_eq_of_lt hm]
  | succ k ih =>
    intro hk t m hm
    rw [Function.iterate_succ_apply, crcBit_step]
    rw [ih (by omega) (crcSpecBit t (m.testBit 7)) ((m <<< 1) % 256)
      (Nat.mod_lt _ (by norm_num))]
    have htop : topBits (k + 1) m = m.testBit 7 :: topBits k ((m <<< 1) % 256) := by
      unfold topBits
      rw [List.range_succ_eq_map, List.map_cons, List.map_map]
      congr 1
      refine List.map_congr_left fun j hj => ?_
      have hjk : j < k := List.mem_range.mp hj
      show m.testBit (7 - (j + 1)) = ((m <<< 1) % 256).testBit (7 - j)
      have h256 : (256 : Nat) = 2 ^ 8 := rfl
      rw [h256, Nat.testBit_mod_two_pow, Nat.testBit_shiftLeft]
      simp [show 7 - j < 8 by omega, show 1 ≤ 7 - j by omega,
        show 7 - j - 1 = 7 - (j + 1) by omega]
    rw [htop, List.foldl_cons]
    congr 1
    rw [Nat.shiftLeft_eq, Nat.shiftLeft_eq, Nat.shiftLeft_eq, Nat.mod_mul_mod]
    congr 1
    ring

theorem crcByte_eq_spec (c b : Nat) (hc : c < 256) (hb : b < 256) :
    crcByte c b = (byteBits b).foldl crcSpecBit c := by
  unfold crcByte
  have hxy : c ^^^ b < 256 := Nat.xor_lt_two_pow (n := 8) hc hb
  rw [Nat.mod_eq_of_lt hxy, crc_chain 8 (le_refl 8) c b hb]
  have hz : (b <<< 8) % 256 = 0 := by
    rw [Nat.shiftLeft_eq]
    show b * 256 % 256 = 0
    exact Nat.mul_mod_left b 256
  rw [hz]
  simp [topBits, byteBits]

theorem crcRun_eq_spec (bs : List Byte) : ∀ c : Nat, c < 256 → (∀ b ∈ bs, b < 256) →
    crcRun c bs = ((bs.map byteBits).flatten).foldl crcSpecBit c := by
  induction bs with
  | nil => intro c _ _; rfl
  | cons b rest ih =>
    intro c hc h
    show crcRun (crcByte c b) rest = _
    rw [List.map_cons, List.flatten_cons, List.foldl_append]
    rw [← crcByte_eq_spec c b hc (h b (List.mem_cons_self b rest))]
    exact ih (crcByte c b) (crcByte_lt c b) (fun x hx => h x (List.mem_cons_of_mem b hx))

/-! ### The CRC register update is injective: any single-byte change to the
checked bytes changes the checksum -/

set_option maxRecDepth 4000 in
theorem crcBit_leftInv : ∀ c : Fin 256, crcBitInv (crcBit c.val) = c.val := by decide

theorem crcBit_inj {a b : Nat} (ha : a < 256) (hb : b < 256) (h : crcBit a = crcBit b) :
    a = b := by
  have h1 := crcBit_leftInv ⟨a, ha⟩
  have h2 := crcBit_leftInv ⟨b, hb⟩
  simp only at h1 h2
  rw [← h1, ← h2, h]

theorem crcIter_inj : ∀ (k : Nat) {a b : Nat}, a < 256 → b < 256 →
    Nat.iterate crcBit k a = Nat.iterate crcBit k b → a = b := by
  intro k
  induction k with
  | zero => intro a b _ _ h; exact h
  | succ k ih =>
    intro a b ha hb h
    rw [Function.iterate_succ_apply, Function.iterate_succ_apply] at h
    exact crcBit_inj ha hb (ih (crcBit_lt a) (crcBit_lt b) h)

theorem xor_right_cancel {a b c : Nat} (h : a ^^^ c = b ^^^ c) : a = b := by
  have := congrArg (fun z => z ^^^ c) h
  simpa [Nat.xor_assoc] using this

theorem crcByte_inj_left {c c' b : Nat} (hc : c < 256) (hc' : c' < 256) (hb : b < 256)
    (h : crcByte c b = crcByte c' b) : c = c' := by
  unfold crcByte at h
  have h1 : c ^^^ b < 256 := Nat.xor_lt_two_pow (n := 8) hc hb
  have h2 : c' ^^^ b < 256 := Nat.xor_lt_two_pow (n := 8) hc' hb
  rw [Nat.mod_eq_of_lt h1, Nat.mod_eq_of_lt h2] at h
  exact xor_right_cancel (crcIter_inj 8 h1 h2 h)

theorem crcByte_inj_right {c b b' : Nat} (hc : c < 256) (hb : b < 256) (hb' : b' < 256)
    (h : crcByte c b = crcByte c b') : b = b' := by
  unfold crcByte at h
  have h1 : c ^^^ b < 256 := Nat.xor_lt_two_pow (n := 8) hc hb
  have h2 : c ^^^ b' < 256 := Nat.xor_lt_two_pow (n := 8) hc hb'
  rw [Nat.mod_eq_of_lt h1, Nat.mod_eq_of_lt h2] at h
  have h3 := crcIter_inj 8 h1 h2 h
  have h4 : b ^^^ c = b' ^^^ c := by
    rw [Nat.xor_comm b c, Nat.xor_comm b' c]
    exact h3
  exact xor_right_cancel h4

theorem crcRun_inj : ∀ (q : List Byte), (∀ x ∈ q, x < 256) → ∀ {c c' : Nat},
    c < 256 → c' < 256 → crcRun c q = crcRun c' q → c = c' := by
  intro q
  induction q with
  | nil => intro _ c c' _ _ h; exact h
  | cons b rest ih =>
    intro hq c c' hc hc' h
    have hb : b < 256 := hq b (List.mem_cons_self b rest)
    have h' : crcRun (crcByte c b) rest = crcRun (crcByte c' b) rest := h
    exact crcByte_inj_left hc hc' hb
      (ih (fun x hx => hq x (List.mem_cons_of_mem b hx))
        (crcByte_lt c b) (crcByte_lt c' b) h')

theorem crcRun_byte_change (p q : List Byte) {x y : Nat} (hx : x < 256) (hy : y < 256)
    (hxy : x ≠ y) (hq : ∀ b ∈ q, b < 256) :
    crcRun 0 (p ++ x :: q) ≠ crcRun 0 (p ++ y :: q) := by
  intro h
  have hx0 : crcRun 0 (p ++ x :: q) = crcRun (crcByte (crcRun 0 p) x) q := by
    unfold crcRun
    rw [List.foldl_append, List.foldl_cons]
  have hy0 : crcRun 0 (p ++ y :: q) = crcRun (crcByte (crcRun 0 p) y) q := by
    unfold crcRun
    rw [List.foldl_append, List.foldl_cons]
  rw [hx0, hy0] at h
  have hc0 : crcRun 0 p < 256 := crcRun_lt p 0 (by norm_num)
  have := crcRun_inj q hq (crcByte_lt _ x) (crcByte_lt _ y) h
  exact hxy (crcByte_inj_right hc0 hx hy this)

/-! ### Parsing a file into record slots -/

theorem recSize_ge (tsize : Nat) : 33 ≤ recSize tsize := by
  unfold recSize
  omega

theorem readSlotsAux_mono (tsize : Nat) : ∀ (fuel₁ fuel₂ : Nat) (bs : List Byte),
    bs.length ≤ fuel₁ → bs.length ≤ fuel₂ →
    readSlotsAux tsize fuel₁ bs = readSlotsAux tsize fuel₂ bs := by
  intro fuel₁
  induction fuel₁ with
  | zero =>
    intro fuel₂ bs h1 _
    have hnil : bs = [] := List.eq_nil_of_length_eq_zero (by omega)
    subst hnil
    have hrs := recSize_ge tsize
    cases fuel₂ with
    | zero => rfl
    | succ n =>
      show _ = if recSize tsize ≤ (0 : Nat) then _ else _
      rw [if_neg (by omega)]
      rfl
  | succ n ih =>
    intro fuel₂ bs h1 h2
    have hrs := recSize_ge tsize
    cases fuel₂ with
    | zero =>
      have hnil : bs = [] := List.eq_nil_of_length_eq_zero (by omega)
      subst hnil
      show (if recSize tsize ≤ (0 : Nat) then _ else _) = _
      rw [if_neg (by omega)]
      rfl
    | succ m =>
      show (if recSize tsize ≤ bs.length then _ else _) =
        (if recSize tsize ≤ bs.length then _ else _)
      by_cases h : recSize tsize ≤ bs.length
      · rw [if_pos h, if_pos h]
        have hd : (bs.drop (recSize tsize)).length ≤ n := by
          rw [List.length_drop]
          omega
        have hd' : (bs.drop (recSize tsize)).length ≤ m := by
          rw [List.length_drop]
          omega
        rw [ih n (bs.drop (recSize tsize)) hd hd]
        rw [ih m (bs.drop (recSize tsize)) hd hd']
      · rw [if_neg h, if_neg h]

theorem readSlots_step (tsize : Nat) (bs : List Byte) (h : recSize tsize ≤ bs.length) :
    readSlots tsize bs =
      bs.take (recSize tsize) :: readSlots tsize (bs.drop (recSize tsize)) := by
  have hrs := recSize_ge tsize
  unfold readSlots
  obtain ⟨n, hn⟩ : ∃ n, bs.length = n + 1 := ⟨bs.length - 1, by omega⟩
  rw [hn]
  show (if recSize tsize ≤ bs.length then _ else _) = _
  rw [if_pos h]
  congr 1
  apply readSlotsAux_mono
  · rw [List.length_drop]
    omega
  · exact le_refl _

theorem readSlots_stop (tsize : Nat) (bs : List Byte) (h : ¬ recSize tsize ≤ bs.length) :
    readSlots tsize bs = [] := by
  unfold readSlots
  cases hn : bs.length with
  | zero => rfl
  | succ n =>
    show (if recSize tsize ≤ bs.length then _ else _) = _
    rw [if_neg h]

theorem readSlots_length (tsize : Nat) : ∀ (n : Nat) (bs : List Byte), bs.length ≤ n →
    ∀ s ∈ readSlots tsize bs, s.length = recSize tsize := by
  intro n
  induction n with
  | zero =>
    intro bs hb s hs
    have hnil : bs = [] := List.eq_nil_of_length_eq_zero (by omega)
    subst hnil
    simp [readSlots_stop tsize [] (by simp; have := recSize_ge tsize; omega)] at hs
  | succ n ih =>
    intro bs hb s hs
    have hrs := recSize_ge tsize
    by_cases h : recSize tsize ≤ bs.length
    · rw [readSlots_step tsize bs h] at hs
      rcases List.mem_cons.mp hs with rfl | hs'
      · rw [List.length_take]
        omega
      · exact ih (bs.drop (recSize tsize)) (by rw [List.length_drop]; omega) s hs'
    · rw [readSlots_stop tsize bs h] at hs
      simp at hs

theorem readSlots_mem_length (tsize : Nat) (bs : List Byte) :
    ∀ s ∈ readSlots tsize bs, s.length = recSize tsize :=
  readSlots_length tsize bs.length bs (le_refl _)

theorem readSlots_append (tsize : Nat) : ∀ (n : Nat) (a b : List Byte), a.length ≤ n →
    a.length % recSize tsize = 0 →
    readSlots tsize (a ++ b) = readSlots tsize a ++ readSlots tsize b := by
  intro n
  induction n with
  | zero =>
    intro a b ha _
    have hnil : a = [] := List.eq_nil_of_length_eq_zero (by omega)
    subst hnil
    simp [readSlots_stop tsize [] (by simp; have := recSize_ge tsize; omega)]
  | succ n ih =>
    intro a b ha hmod
    have hrs := recSize_ge tsize
    by_cases h : recSize tsize ≤ a.length
    · have hab : recSize tsize ≤ (a ++ b).length := by
        rw [List.length_append]
        omega
      rw [readSlots_step tsize (a ++ b) hab, readSlots_step tsize a h]
      rw [List.take_append_of_le_length h, List.drop_append_of_le_length h]
      rw [ih (a.drop (recSize tsize)) b (by rw [List.length_drop]; omega)
        (by
          rw [List.length_drop]
          exact Nat.mod_eq_zero_of_dvd
            (Nat.dvd_sub' (Nat.dvd_of_mod_eq_zero hmod) (dvd_refl _)))]
      simp
    · have hz : a.length = 0 := by
        rcases Nat.lt_or_ge a.length (recSize tsize) with hlt | hge
        · rw [Nat.mod_eq_of_lt hlt] at hmod
          exact hmod
        · omega
      have hnil : a = [] := List.eq_nil_of_length_eq_zero hz
      subst hnil
      simp [readSlots_stop tsize [] (by simp; omega)]

theorem readSlots_flatten (tsize : Nat) : ∀ (l : List (List Byte)),
    (∀ s ∈ l, s.length = recSize tsize) → readSlots tsize l.flatten = l := by
  intro l
  induction l with
  | nil =>
    intro _
    exact readSlots_stop tsize [] (by simp; have := recSize_ge tsize; omega)
  | cons s rest ih =>
    intro h
    have hs : s.length = recSize tsize := h s (List.mem_cons_self s rest)
    rw [List.flatten_cons]
    have hstep : recSize tsize ≤ (s ++ rest.flatten).length := by
      rw [List.length_append]
      omega
    rw [readSlots_step tsize _ hstep]
    rw [← hs, List.take_left, List.drop_left]
    rw [ih (fun x hx => h x (List.mem_cons_of_mem s hx))]

theorem flatten_length_mod (tsize : Nat) (l : List (List Byte))
    (h : ∀ s ∈ l, s.length = recSize tsize) :
    l.flatten.length % recSize tsize = 0 := by
  induction l with
  | nil => simp
  | cons s rest ih =>
    rw [List.flatten_cons, List.length_append, h s (List.mem_cons_self s rest)]
    rw [Nat.add_mod, Nat.mod_self]
    rw [Nat.zero_add, ih (fun x hx => h x (List.mem_cons_of_mem s hx))]
    exact Nat.zero_mod _

/-! ### The scan loops, characterized over the slot sequence -/

theorem find?_filter {α : Type} (l : List α) (p q : α → Bool) :
    (l.filter p).find? q = l.find? (fun a => p a && q a) := by
  induction l with
  | nil => rfl
  | cons a l ih =>
    cases hp : p a with
    | false =>
      rw [List.filter_cons_of_neg (by simp [hp])]
      rw [List.find?_cons_of_neg _ (by simp [hp])]
      exact ih
    | true =>
      rw [List.filter_cons_of_pos (by simp [hp])]
      cases hq : q a with
      | false =>
        rw [List.find?_cons_of_neg _ (by simp [hq]), List.find?_cons_of_neg _ (by simp [hp, hq])]
        exact ih
      | true =>
        rw [List.find?_cons_of_pos _ (by simp [hq]), List.find?_cons_of_pos _ (by simp [hp, hq])]

theorem queryLoopAux_eq (tsize : Nat) (k : List Byte) : ∀ (fuel : Nat) (bs : List Byte),
    bs.length ≤ fuel →
    queryLoopAux tsize k fuel bs =
      ((readSlots tsize bs).find?
        (fun s => slotValid tsize s && (slotKey s == cstr k))).map (slotData tsize) := by
  intro fuel
  induction fuel with
  | zero =>
    intro bs hb
    have hnil : bs = [] := List.eq_nil_of_length_eq_zero (by omega)
    subst hnil
    rw [readSlots_stop tsize [] (by simp; have := recSize_ge tsize; omega)]
    rfl
  | succ n ih =>
    intro bs hb
    have hrs := recSize_ge tsize
    by_cases h : recSize tsize ≤ bs.length
    · rw [readSlots_step tsize bs h]
      show (if recSize tsize ≤ bs.length then _ else _) = _
      rw [if_pos h]
      have hdrop : (bs.drop (recSize tsize)).length ≤ n := by
        rw [List.length_drop]
        omega
      cases hv : slotValid tsize (bs.take (recSize tsize)) with
      | false =>
        rw [List.find?_cons_of_neg _ (by simp [hv])]
        rw [if_neg (by simp)]
        exact ih _ hdrop
      | true =>
        rw [if_pos rfl]
        cases hkm : slotKey (bs.take (recSize tsize)) == cstr k with
        | true =>
          rw [List.find?_cons_of_pos _ (by simp [hv, hkm]), if_pos rfl]
          rfl
        | false =>
          rw [List.find?_cons_of_neg _ (by simp [hv, hkm]), if_neg (by simp)]
          exact ih _ hdrop
    · rw [readSlots_stop tsize bs h]
      show (if recSize tsize ≤ bs.length then _ else _) = _
      rw [if_neg h]
      rfl

theorem countLoopAux_eq (tsize : Nat) : ∀ (fuel : Nat) (bs : List Byte),
    bs.length ≤ fuel →
    countLoopAux tsize fuel bs = ((readSlots tsize bs).filter (slotValid tsize)).length := by
  intro fuel
  induction fuel with
  | zero =>
    intro bs hb
    have hnil : bs = [] := List.eq_nil_of_length_eq_zero (by omega)
    subst hnil
    rw [readSlots_stop tsize [] (by simp; have := recSize_ge tsize; omega)]
    rfl
  | succ n ih =>
    intro bs hb
    have hrs := recSize_ge tsize
    by_cases h : recSize tsize ≤ bs.length
    · rw [readSlots_step tsize bs h]
      show (if recSize tsize ≤ bs.length then _ else _) = _
      rw [if_pos h]
      have hdrop : (bs.drop (recSize tsize)).length ≤ n := by
        rw [List.length_drop]
        omega
      cases hv : slotValid tsize (bs.take (recSize tsize)) with
      | false =>
        rw [List.filter_cons_of_neg (by simp [hv]), if_neg (by simp)]
        exact ih _ hdrop
      | true =>
        rw [List.filter_cons_of_pos (by simp [hv]), if_pos rfl, List.length_cons]
        rw [ih _ hdrop]
    · rw [readSlots_stop tsize bs h]
      show (if recSize tsize ≤ bs.length then _ else _) = _
      rw [if_neg h]
      rfl

theorem removeLoopAux_eq (tsize : Nat) (k : List Byte) : ∀ (fuel : Nat) (bs : List Byte),
    bs.length ≤ fuel →
    removeLoopAux tsize k fuel bs =
      ((readSlots tsize bs).any (fun s => slotValid tsize s && (slotKey s == cstr k)),
        ((readSlots tsize bs).filter
          (fun s => slotValid tsize s && !(slotKey s == cstr k))).flatten) := by
  intro fuel
  induction fuel with
  | zero =>
    intro bs hb
    have hnil : bs = [] := List.eq_nil_of_length_eq_zero (by omega)
    subst hnil
    rw [readSlots_stop tsize [] (by simp; have := recSize_ge tsize; omega)]
    rfl
  | succ n ih =>
    intro bs hb
    have hrs := recSize_ge tsize
    by_cases h : recSize tsize ≤ bs.length
    · rw [readSlots_step tsize bs h]
      show (if recSize tsize ≤ bs.length then _ else _) = _
      rw [if_pos h]
      have hdrop : (bs.drop (recSize tsize)).length ≤ n := by
        rw [List.length_drop]
        omega
      cases hv : slotValid tsize (bs.take (recSize tsize)) with
      | false =>
        rw [if_neg (by simp)]
        rw [List.any_cons, List.filter_cons_of_neg (by simp [hv])]
        rw [ih _ hdrop]
        simp [hv]
      | true =>
        rw [if_pos rfl]
        cases hkm : slotKey (bs.take (recSize tsize)) == cstr k with
        | true =>
          rw [if_pos rfl, List.any_cons, List.filter_cons_of_neg (by simp [hv, hkm])]
          rw [ih _ hdrop]
          simp [hv, hkm]
        | false =>
          rw [if_neg (by simp), List.any_cons]
          rw [List.filter_cons_of_pos (by simp [hv, hkm])]
          rw [ih _ hdrop]
          simp [hv, hkm]
    · rw [readSlots_stop tsize bs h]
      show (if recSize tsize ≤ bs.length then _ else _) = _
      rw [if_neg h]
      rfl

theorem selectAllLoopAux_eq (tsize : Nat) : ∀ (fuel : Nat) (bs : List Byte),
    bs.length ≤ fuel →
    selectAllLoopAux tsize fuel bs =
      ((readSlots tsize bs).filter (slotValid tsize)).map
        (fun s => (slotKey s, slotData tsize s)) := by
  intro fuel
  induction fuel with
  | zero =>
    intro bs hb
    have hnil : bs = [] := List.eq_nil_of_length_eq_zero (by omega)
    subst hnil
    rw [readSlots_stop tsize [] (by simp; have := recSize_ge tsize; omega)]
    rfl
  | succ n ih =>
    intro bs hb
    have hrs := recSize_ge tsize
    by_cases h : recSize tsize ≤ bs.length
    · rw [readSlots_step tsize bs h]
      show (if recSize tsize ≤ bs.length then _ else _) = _
      rw [if_pos h]
      have hdrop : (bs.drop (recSize tsize)).length ≤ n := by
        rw [List.length_drop]
        omega
      cases hv : slotValid tsize (bs.take (recSize tsize)) with
      | false =>
        rw [List.filter_cons_of_neg (by simp [hv]), if_neg (by simp)]
        exact ih _ hdrop
      | true =>
        rw [List.filter_cons_of_pos (by simp [hv]), if_pos rfl, List.map_cons]
        rw [ih _ hdrop]
    · rw [readSlots_stop tsize bs h]
      show (if recSize tsize ≤ bs.length then _ else _) = _
      rw [if_neg h]
      rfl

theorem query_some_eq (tsize : Nat) (k : List Byte) (bs : List Byte) :
    query tsize (some k) (some bs) =
      ((readSlots tsize bs).find?
        (fun s => slotValid tsize s && (slotKey s == cstr k))).map (slotData tsize) :=
  queryLoopAux_eq tsize k bs.length bs (le_refl _)

theorem query_live_eq (tsize : Nat) (k : List Byte) (bs : List Byte) :
    query tsize (some k) (some bs) =
      ((liveSlots tsize bs).find? (fun s => slotKey s == cstr k)).map (slotData tsize) := by
  rw [query_some_eq]
  unfold liveSlots
  rw [find?_filter]

theorem count_some_eq (tsize : Nat) (bs : List Byte) :
    count tsize (some bs) = (liveSlots tsize bs).length :=
  countLoopAux_eq tsize bs.length bs (le_refl _)

theorem remove_some_eq (tsize : Nat) (k : List Byte) (bs : List Byte) :
    remove tsize (some k) (some bs) =
      if (readSlots tsize bs).any (fun s => slotValid tsize s && (slotKey s == cstr k)) then
        (true, some ((readSlots tsize bs).filter
          (fun s => slotValid tsize s && !(slotKey s == cstr k))).flatten)
      else (false, some bs) := by
  show (if (removeLoopAux tsize k bs.length bs).1 then _ else _) = _
  rw [removeLoopAux_eq tsize k bs.length bs (le_refl _)]

theorem selectAll_some_eq (tsize : Nat) (bs : List Byte) :
    selectAll tsize (some bs) =
      (liveSlots tsize bs).map (fun s => (slotKey s, slotData tsize s)) :=
  selectAllLoopAux_eq tsize bs.length bs (le_refl _)

/-! ### The serialized record built by insert -/

theorem cstr_ne_zero (k : List Byte) : ∀ b ∈ cstr k, b ≠ 0 := by
  intro b hb
  have := List.mem_takeWhile_imp hb
  simpa using this

theorem cstr_append_zero (l rest : List Byte) (hl : ∀ b ∈ l, b ≠ 0) :
    cstr (l ++ 0 :: rest) = l := by
  induction l with
  | nil => simp [cstr]
  | cons a l ih =>
    have ha : a ≠ 0 := hl a (List.mem_cons_self a l)
    unfold cstr at *
    rw [List.cons_append, List.takeWhile_cons_of_pos (by simpa using ha)]
    rw [ih (fun b hb => hl b (List.mem_cons_of_mem a hb))]

theorem keyField_length (k : List Byte) : (keyField k).length = 32 := by
  unfold keyField strlen
  rw [List.length_append, List.length_take, List.length_replicate]
  omega

theorem padTo_length (n : Nat) (d : List Byte) : (padTo n d).length = n := by
  unfold padTo
  rw [List.length_append, List.length_take, List.length_replicate]
  omega

theorem body_length (tsize : Nat) (k d : List Byte) :
    (keyField k ++ padTo tsize d).length = recSize tsize - 1 := by
  rw [List.length_append, keyField_length, padTo_length]
  unfold recSize
  omega

theorem mkRecord_length (tsize : Nat) (k d : List Byte) :
    (mkRecord tsize k d).length = recSize tsize := by
  unfold mkRecord
  rw [List.length_append, body_length]
  have := recSize_ge tsize
  simp
  omega

theorem computeCRC_mkRecord (tsize : Nat) (k d : List Byte) :
    computeCRC tsize (mkRecord tsize k d) = crcRun 0 (keyField k ++ padTo tsize d) := by
  unfold computeCRC mkRecord
  rw [List.take_left' (body_length tsize k d)]

theorem slotCrc_mkRecord (tsize : Nat) (k d : List Byte) :
    slotCrc tsize (mkRecord tsize k d) = crcRun 0 (keyField k ++ padTo tsize d) := by
  unfold slotCrc mkRecord
  rw [List.getD_eq_getElem?_getD]
  rw [List.getElem?_append_right (by rw [body_length])]
  rw [body_length]
  simp

theorem slotValid_mkRecord (tsize : Nat) (k d : List Byte) :
    slotValid tsize (mkRecord tsize k d) = true := by
  unfold slotValid
  rw [computeCRC_mkRecord, slotCrc_mkRecord]
  exact beq_self_eq_true _

theorem cstr_keyField (k : List Byte) (h : strlen k < 32) :
    cstr (keyField k) = cstr k := by
  unfold keyField
  have hle : (cstr k).length ≤ 31 := by
    unfold strlen at h
    omega
  rw [List.take_of_length_le hle]
  have hrep : 32 - min 31 (strlen k) = (31 - strlen k) + 1 := by
    unfold strlen at *
    omega
  rw [hrep, List.replicate_succ]
  exact cstr_append_zero (cstr k) _ (cstr_ne_zero k)

theorem slotKey_mkRecord (tsize : Nat) (k d : List Byte) (h : strlen k < 32) :
    slotKey (mkRecord tsize k d) = cstr k := by
  unfold slotKey mkRecord
  rw [List.append_assoc]
  rw [List.take_left' (keyField_length k)]
  exact cstr_keyField k h

theorem slotData_mkRecord (tsize : Nat) (k d : List Byte) (hd : d.length = tsize) :
    slotData tsize (mkRecord tsize k d) = d := by
  unfold slotData mkRecord
  rw [List.append_assoc]
  rw [List.drop_left' (keyField_length k)]
  rw [List.take_left' (padTo_length tsize d)]
  unfold padTo
  rw [List.take_of_length_le (by omega), hd, Nat.sub_self]
  simp

/-! ### Basic operation facts -/

theorem query_none_key (tsize : Nat) (f : Option (List Byte)) : query tsize none f = none := by
  cases f <;> rfl

theorem remove_none_key (tsize : Nat) (f : Option (List Byte)) :
    remove tsize none f = (false, f) := by
  cases f <;> rfl

theorem insert_bad_key (tsize : Nat) (key : Option (List Byte)) (d : List Byte)
    (f : Option (List Byte))
    (h : key = none ∨ ∃ k, key = some k ∧ 32 ≤ strlen k) :
    insert tsize key d f = (false, f) := by
  rcases h with rfl | ⟨k, rfl, hk⟩
  · rfl
  · have he : insert tsize (some k) d f =
        if 32 ≤ strlen k then (false, f)
        else (true, some (((remove tsize (some k) f).2.getD []) ++ mkRecord tsize k d)) := rfl
    rw [he, if_pos hk]

theorem insert_good_key (tsize : Nat) (k d : List Byte) (f : Option (List Byte))
    (h : strlen k < 32) :
    insert tsize (some k) d f =
      (true, some (((remove tsize (some k) f).2.getD []) ++ mkRecord tsize k d)) := by
  have he : insert tsize (some k) d f =
      if 32 ≤ strlen k then (false, f)
      else (true, some (((remove tsize (some k) f).2.getD []) ++ mkRecord tsize k d)) := rfl
  rw [he, if_neg (by omega)]

theorem remove_found (tsize : Nat) (k bs : List Byte)
    (h : (readSlots tsize bs).any
      (fun s => slotValid tsize s && (slotKey s == cstr k)) = true) :
    remove tsize (some k) (some bs) =
      (true, some ((readSlots tsize bs).filter
        (fun s => slotValid tsize s && !(slotKey s == cstr k))).flatten) := by
  rw [remove_some_eq, if_pos h]

theorem remove_not_found (tsize : Nat) (k bs : List Byte)
    (h : (readSlots tsize bs).any
      (fun s => slotValid tsize s && (slotKey s == cstr k)) = false) :
    remove tsize (some k) (some bs) = (false, some bs) := by
  rw [remove_some_eq, if_neg (by simp [h])]

/-! ### The compacted file written by remove -/

theorem keep_eq_live_filter (tsize : Nat) (k bs : List Byte) :
    (readSlots tsize bs).filter (fun s => slotValid tsize s && !(slotKey s == cstr k)) =
      (liveSlots tsize bs).filter (fun s => !(slotKey s == cstr k)) := by
  unfold liveSlots
  rw [List.filter_filter]
  exact List.filter_congr (fun s _ => Bool.and_comm _ _)

theorem keep_lengths (tsize : Nat) (k bs : List Byte) :
    ∀ s ∈ (readSlots tsize bs).filter
      (fun s => slotValid tsize s && !(slotKey s == cstr k)),
      s.length = recSize tsize := by
  intro s hs
  exact readSlots_mem_length tsize bs s (List.mem_of_mem_filter hs)

theorem keep_all_valid (tsize : Nat) (k bs : List Byte) :
    ∀ s ∈ (readSlots tsize bs).filter
      (fun s => slotValid tsize s && !(slotKey s == cstr k)),
      slotValid tsize s = true := by
  intro s hs
  have := List.of_mem_filter hs
  exact (Bool.and_eq_true_iff.mp this).1

theorem keep_no_match (tsize : Nat) (k bs : List Byte) :
    ∀ s ∈ (readSlots tsize bs).filter
      (fun s => slotValid tsize s && !(slotKey s == cstr k)),
      (slotKey s == cstr k) = false := by
  intro s hs
  have := List.of_mem_filter hs
  have h2 := (Bool.and_eq_true_iff.mp this).2
  simpa using h2

theorem liveSlots_flatten_keep (tsize : Nat) (k bs : List Byte) :
    liveSlots tsize ((readSlots tsize bs).filter
      (fun s => slotValid tsize s && !(slotKey s == cstr k))).flatten =
      (readSlots tsize bs).filter (fun s => slotValid tsize s && !(slotKey s == cstr k)) := by
  unfold liveSlots
  rw [readSlots_flatten tsize _ (keep_lengths tsize k bs)]
  rw [List.filter_eq_self.mpr (keep_all_valid tsize k bs)]

theorem keep_flatten_mod (tsize : Nat) (k bs : List Byte) :
    ((readSlots tsize bs).filter
      (fun s => slotValid tsize s && !(slotKey s == cstr k))).flatten.length %
        recSize tsize = 0 :=
  flatten_length_mod tsize _ (keep_lengths tsize k bs)

/-! ### liveSlots under concatenation -/

theorem liveSlots_append (tsize : Nat) (a b : List Byte)
    (ha : a.length % recSize tsize = 0) :
    liveSlots tsize (a ++ b) = liveSlots tsize a ++ liveSlots tsize b := by
  unfold liveSlots
  rw [readSlots_append tsize a.length a b (le_refl _) ha, List.filter_append]

theorem readSlots_singleton (tsize : Nat) (s : List Byte)
    (hs : s.length = recSize tsize) :
    readSlots tsize s = [s] := by
  rw [readSlots_step tsize s (le_of_eq hs.symm)]
  rw [List.take_of_length_le (le_of_eq hs)]
  have hdrop : s.drop (recSize tsize) = [] := by
    apply List.drop_eq_nil_of_le
    omega
  rw [hdrop]
  rfl

theorem liveSlots_mkRecord (tsize : Nat) (k d : List Byte) :
    liveSlots tsize (mkRecord tsize k d) = [mkRecord tsize k d] := by
  unfold liveSlots
  rw [readSlots_singleton tsize _ (mkRecord_length tsize k d)]
  rw [List.filter_cons_of_pos (by simp [slotValid_mkRecord])]
  rfl

/-! ### The store invariant: aligned file, unique live keys -/

theorem goodF_none (tsize : Nat) : GoodF tsize none := by
  refine ⟨?_, ?_⟩
  · intro bs h
    cases h
  · intro bs h
    cases h

theorem good_remove (tsize : Nat) (key : Option (List Byte)) (f : Option (List Byte))
    (hf : GoodF tsize f) : GoodF tsize (remove tsize key f).2 := by
  cases key with
  | none => rw [remove_none_key]; exact hf
  | some k =>
    cases f with
    | none => exact goodF_none tsize
    | some bs =>
      cases hfound : (readSlots tsize bs).any
          (fun s => slotValid tsize s && (slotKey s == cstr k)) with
      | false => rw [remove_not_found tsize k bs hfound]; exact hf
      | true =>
        rw [remove_found tsize k bs hfound]
        constructor
        · intro bs1 h1
          injection h1 with h2
          subst h2
          exact keep_flatten_mod tsize k bs
        · intro bs1 h1
          injection h1 with h2
          subst h2
          unfold liveKeys
          rw [liveSlots_flatten_keep, keep_eq_live_filter]
          have hnd : (liveKeys tsize bs).Nodup := hf.2 bs rfl
          unfold liveKeys at hnd
          exact List.Nodup.sublist ((List.filter_sublist _).map slotKey) hnd

theorem remove_no_live_match (tsize : Nat) (k : List Byte) (f : Option (List Byte)) :
    ∀ bs1, (remove tsize (some k) f).2 = some bs1 →
      ∀ s ∈ liveSlots tsize bs1, (slotKey s == cstr k) = false := by
  cases f with
  | none => intro bs1 h; exact Option.noConfusion h
  | some bs =>
    cases hfound : (readSlots tsize bs).any
        (fun s => slotValid tsize s && (slotKey s == cstr k)) with
    | true =>
      rw [remove_found tsize k bs hfound]
      intro bs1 h1
      injection h1 with h2
      subst h2
      rw [liveSlots_flatten_keep]
      exact keep_no_match tsize k bs
    | false =>
      rw [remove_not_found tsize k bs hfound]
      intro bs1 h1
      injection h1 with h2
      subst h2
      intro s hs
      have hmem : s ∈ readSlots tsize bs := List.mem_of_mem_filter hs
      have hvalid : slotValid tsize s = true := List.of_mem_filter hs
      have hall := List.any_eq_false.mp hfound s hmem
      rw [hvalid] at hall
      simpa using hall

theorem good_insert (tsize : Nat) (key : Option (List Byte)) (d : List Byte)
    (f : Option (List Byte)) (hf : GoodF tsize f) :
    GoodF tsize (insert tsize key d f).2 := by
  cases key with
  | none => exact hf
  | some k =>
    by_cases hk : 32 ≤ strlen k
    · rw [insert_bad_key tsize (some k) d f (Or.inr ⟨k, rfl, hk⟩)]
      exact hf
    · rw [insert_good_key tsize k d f (by omega)]
      have hrem : GoodF tsize (remove tsize (some k) f).2 :=
        good_remove tsize (some k) f hf
      have hal : ((remove tsize (some k) f).2.getD []).length % recSize tsize = 0 := by
        cases hr : (remove tsize (some k) f).2 with
        | none => simp
        | some bs1 =>
          simp only [hr, Option.getD_some]
          exact hrem.1 bs1 hr
      have hnd1 : ((liveSlots tsize ((remove tsize (some k) f).2.getD [])).map slotKey).Nodup := by
        cases hr : (remove tsize (some k) f).2 with
        | none =>
          simp only [hr, Option.getD_none]
          have : liveSlots tsize [] = [] := by
            unfold liveSlots
            rw [readSlots_stop tsize [] (by simp; have := recSize_ge tsize; omega)]
            rfl
          rw [this]
          exact List.nodup_nil
        | some bs1 =>
          simp only [hr, Option.getD_some]
          have := hrem.2 bs1 hr
          unfold liveKeys at this
          exact this
      have hnotin : cstr k ∉ (liveSlots tsize ((remove tsize (some k) f).2.getD [])).map slotKey := by
        cases hr : (remove tsize (some k) f).2 with
        | none =>
          simp only [hr, Option.getD_none]
          have : liveSlots tsize [] = [] := by
            unfold liveSlots
            rw [readSlots_stop tsize [] (by simp; have := recSize_ge tsize; omega)]
            rfl
          rw [this]
          simp
        | some bs1 =>
          simp only [hr, Option.getD_some]
          intro hmem
          obtain ⟨s, hs, hks⟩ := List.mem_map.mp hmem
          have := remove_no_live_match tsize k f bs1 hr s hs
          rw [hks] at this
          simp at this
      constructor
      · intro bs2 h2
        injection h2 with h3
        subst h3
        rw [List.length_append, mkRecord_length, Nat.add_mod, hal, Nat.mod_self]
        simp
      · intro bs2 h2
        injection h2 with h3
        subst h3
        unfold liveKeys
        rw [liveSlots_append tsize _ _ hal, liveSlots_mkRecord, List.map_append]
        rw [List.map_cons, List.map_nil, slotKey_mkRecord tsize k d (by omega)]
        apply List.Nodup.append hnd1 (List.nodup_singleton _)
        intro x hx hx'
        rw [List.mem_singleton] at hx'
        subst hx'
        exact hnotin hx

theorem good_reachable (tsize : Nat) (f : Option (List Byte))
    (hr : Reachable tsize f) : GoodF tsize f := by
  induction hr with
  | empty => exact goodF_none tsize
  | insertStep key d hstep ih => exact good_insert tsize key d _ ih
  | removeStep key hstep ih => exact good_remove tsize key _ ih
  | clearStep hstep _ => exact goodF_none tsize

/-! ### Further helpers for the claims -/

theorem liveSlots_nil (tsize : Nat) : liveSlots tsize [] = [] := by
  unfold liveSlots
  rw [readSlots_stop tsize [] (by simp; have := recSize_ge tsize; omega)]
  rfl

theorem remove_getD_aligned (tsize : Nat) (k : List Byte) (f : Option (List Byte))
    (hf : AlignedF tsize f) :
    ((remove tsize (some k) f).2.getD []).length % recSize tsize = 0 := by
  cases f with
  | none => exact Nat.zero_mod _
  | some bs =>
    cases hfound : (readSlots tsize bs).any
        (fun s => slotValid tsize s && (slotKey s == cstr k)) with
    | true =>
      rw [remove_found tsize k bs hfound]
      exact keep_flatten_mod tsize k bs
    | false =>
      rw [remove_not_found tsize k bs hfound]
      exact hf bs rfl

theorem remove_getD_no_match (tsize : Nat) (k : List Byte) (f : Option (List Byte)) :
    ∀ s ∈ liveSlots tsize ((remove tsize (some k) f).2.getD []),
      (slotKey s == cstr k) = false := by
  cases hr : (remove tsize (some k) f).2 with
  | none =>
    simp only [Option.getD_none]
    rw [liveSlots_nil]
    intro s hs
    exact absurd hs (List.not_mem_nil s)
  | some bs1 =>
    simp only [Option.getD_some]
    exact remove_no_live_match tsize k f bs1 hr

theorem length_filter_split {α : Type} (l : List α) (p : α → Bool) :
    (l.filter (fun a => ! p a)).length + (l.filter p).length = l.length := by
  induction l with
  | nil => rfl
  | cons a l ih =>
    cases hp : p a with
    | true =>
      rw [List.filter_cons_of_neg (by simp [hp]), List.filter_cons_of_pos (by simp [hp])]
      simp only [List.length_cons]
      omega
    | false =>
      rw [List.filter_cons_of_pos (by simp [hp]), List.filter_cons_of_neg (by simp [hp])]
      simp only [List.length_cons]
      omega

theorem nodup_map_filter_le_one {α β : Type} [DecidableEq β] [BEq β] [LawfulBEq β]
    (l : List α) (f : α → β) (hnd : (l.map f).Nodup) (k : β) :
    (l.filter (fun a => f a == k)).length ≤ 1 := by
  induction l with
  | nil => exact Nat.zero_le 1
  | cons a l ih =>
    rw [List.map_cons, List.nodup_cons] at hnd
    cases hk : (f a == k) with
    | false =>
      rw [List.filter_cons_of_neg (by simp [hk])]
      exact ih hnd.2
    | true =>
      rw [List.filter_cons_of_pos (by simp [hk])]
      have hfa : f a = k := eq_of_beq hk
      have hempty : l.filter (fun x => f x == k) = [] := by
        rw [List.filter_eq_nil_iff]
        intro x hx hbx
        apply hnd.1
        rw [List.mem_map]
        refine ⟨x, hx, ?_⟩
        have : f x = k := eq_of_beq (by simpa using hbx)
        rw [this, hfa]
      rw [hempty]
      exact le_refl 1

/-! ### Corrupting a single byte of a slot -/

theorem take_set_comm (s : List Byte) (i v m : Nat) (him : i < m) (hms : m ≤ s.length) :
    (s.set i v).take m = (s.take m).set i v := by
  apply List.ext_getElem?
  intro n
  by_cases hn : n < m
  · rw [List.getElem?_take_of_lt hn]
    by_cases hni : n = i
    · subst hni
      rw [List.getElem?_set_self (by omega)]
      rw [List.getElem?_set_self (by rw [List.length_take]; omega)]
    · rw [List.getElem?_set_ne (fun hh => hni hh.symm)]
      rw [List.getElem?_set_ne (fun hh => hni hh.symm)]
      rw [List.getElem?_take_of_lt hn]
  · have h1 : ((s.set i v).take m).length ≤ n := by
      rw [List.length_take, List.length_set]
      omega
    have h2 : ((s.take m).set i v).length ≤ n := by
      rw [List.length_set, List.length_take]
      omega
    rw [List.getElem?_eq_none h1, List.getElem?_eq_none h2]

theorem set_getD_self (s : List Byte) (i : Nat) (hi : i < s.length) :
    s.set i (s.getD i 0) = s := by
  apply List.ext_getElem?
  intro n
  by_cases hni : n = i
  · subst hni
    rw [List.getElem?_set_self hi]
    rw [List.getD_eq_getElem?_getD, List.getElem?_eq_getElem hi]
    rfl
  · rw [List.getElem?_set_ne (fun hh => hni hh.symm)]

theorem list_decomp_at (s : List Byte) (i : Nat) (hi : i < s.length) :
    s = s.take i ++ s.getD i 0 :: s.drop (i + 1) := by
  conv_lhs => rw [← set_getD_self s i hi]
  exact List.set_eq_take_cons_drop _ hi

theorem slotValid_set_false (tsize : Nat) (s : List Byte) (i : Nat) (v : Byte)
    (hs : s.length = recSize tsize) (hi : i < recSize tsize - 1)
    (hbytes : ∀ x ∈ s, x < 256) (hv : v < 256) (hne : s.getD i 0 ≠ v)
    (hvalid : slotValid tsize s = true) :
    slotValid tsize (s.set i v) = false := by
  have hrs := recSize_ge tsize
  have hib : i < (s.take (recSize tsize - 1)).length := by
    rw [List.length_take]
    omega
  have hcrc_old : computeCRC tsize s =
      crcRun 0 ((s.take (recSize tsize - 1)).take i ++
        (s.take (recSize tsize - 1)).getD i 0 :: (s.take (recSize tsize - 1)).drop (i + 1)) := by
    unfold computeCRC
    congr 1
    exact list_decomp_at _ i hib
  have hcrc_new : computeCRC tsize (s.set i v) =
      crcRun 0 ((s.take (recSize tsize - 1)).take i ++
        v :: (s.take (recSize tsize - 1)).drop (i + 1)) := by
    unfold computeCRC
    congr 1
    rw [take_set_comm s i v _ hi (by omega)]
    exact List.set_eq_take_cons_drop v hib
  have hx_eq : (s.take (recSize tsize - 1)).getD i 0 = s.getD i 0 := by
    rw [List.getD_eq_getElem?_getD, List.getD_eq_getElem?_getD,
      List.getElem?_take_of_lt (by omega)]
  have hx_lt : (s.take (recSize tsize - 1)).getD i 0 < 256 := by
    rw [hx_eq, List.getD_eq_getElem?_getD, List.getElem?_eq_getElem (by omega)]
    exact hbytes _ (List.getElem_mem _)
  have hq_lt : ∀ x ∈ (s.take (recSize tsize - 1)).drop (i + 1), x < 256 :=
    fun x hx => hbytes x (List.mem_of_mem_take (List.mem_of_mem_drop hx))
  have hdiff : computeCRC tsize (s.set i v) ≠ computeCRC tsize s := by
    rw [hcrc_old, hcrc_new]
    refine crcRun_byte_change _ _ hv hx_lt ?_ hq_lt
    intro hh
    rw [hx_eq] at hh
    exact hne hh.symm
  have hcrcbyte : slotCrc tsize (s.set i v) = slotCrc tsize s := by
    unfold slotCrc
    rw [List.getD_eq_getElem?_getD, List.getD_eq_getElem?_getD]
    rw [List.getElem?_set_ne (by omega : i ≠ recSize tsize - 1)]
  have heq : computeCRC tsize s = slotCrc tsize s := by
    unfold slotValid at hvalid
    exact eq_of_beq hvalid
  unfold slotValid
  rw [hcrcbyte]
  refine beq_eq_false_iff_ne.mpr ?_
  intro hh
  exact hdiff (hh.trans heq.symm)

theorem liveSlots_cons_valid (tsize : Nat) (s b : List Byte)
    (hs : s.length = recSize tsize) (hv : slotValid tsize s = true) :
    liveSlots tsize (s ++ b) = s :: liveSlots tsize b := by
  unfold liveSlots
  rw [readSlots_step tsize (s ++ b) (by rw [List.length_append]; omega)]
  rw [List.take_left' hs, List.drop_left' hs]
  rw [List.filter_cons_of_pos (by simp [hv])]

theorem liveSlots_cons_invalid (tsize : Nat) (s b : List Byte)
    (hs : s.length = recSize tsize) (hv : slotValid tsize s = false) :
    liveSlots tsize (s ++ b) = liveSlots tsize b := by
  unfold liveSlots
  rw [readSlots_step tsize (s ++ b) (by rw [List.length_append]; omega)]
  rw [List.take_left' hs, List.drop_left' hs]
  rw [List.filter_cons_of_neg (by simp [hv])]

/-! ### Counting helpers for operation sequences -/

theorem live_match_one (tsize : Nat) (k bs : List Byte)
    (hnd : (liveKeys tsize bs).Nodup)
    (hany : (readSlots tsize bs).any
      (fun s => slotValid tsize s && (slotKey s == cstr k)) = true) :
    ((liveSlots tsize bs).filter (fun s => slotKey s == cstr k)).length = 1 := by
  have hle : ((liveSlots tsize bs).filter (fun s => slotKey s == cstr k)).length ≤ 1 := by
    unfold liveKeys at hnd
    exact nodup_map_filter_le_one (liveSlots tsize bs) slotKey hnd (cstr k)
  obtain ⟨s, hmem, hp⟩ := List.any_eq_true.mp hany
  have hv : slotValid tsize s = true := (Bool.and_eq_true_iff.mp hp).1
  have hm : (slotKey s == cstr k) = true := (Bool.and_eq_true_iff.mp hp).2
  have hin : s ∈ (liveSlots tsize bs).filter (fun s => slotKey s == cstr k) :=
    List.mem_filter.mpr ⟨List.mem_filter.mpr ⟨hmem, hv⟩, hm⟩
  have hpos := List.length_pos_of_mem hin
  omega

theorem count_remove_found (tsize : Nat) (k bs : List Byte)
    (hnd : (liveKeys tsize bs).Nodup)
    (hany : (readSlots tsize bs).any
      (fun s => slotValid tsize s && (slotKey s == cstr k)) = true) :
    count tsize (remove tsize (some k) (some bs)).2 + 1 = count tsize (some bs) := by
  rw [remove_found tsize k bs hany]
  show count tsize (some ((readSlots tsize bs).filter
    (fun s => slotValid tsize s && !(slotKey s == cstr k))).flatten) + 1 =
      count tsize (some bs)
  rw [count_some_eq, count_some_eq, liveSlots_flatten_keep, keep_eq_live_filter]
  rw [← live_match_one tsize k bs hnd hany]
  exact length_filter_split (liveSlots tsize bs) (fun s => slotKey s == cstr k)

theorem remove_fst (tsize : Nat) (k bs : List Byte) :
    (remove tsize (some k) (some bs)).1 =
      (readSlots tsize bs).any (fun s => slotValid tsize s && (slotKey s == cstr k)) := by
  rw [remove_some_eq]
  cases h : (readSlots tsize bs).any
      (fun s => slotValid tsize s && (slotKey s == cstr k)) <;> simp

theorem count_insert_delta (tsize : Nat) (key : Option (List Byte)) (d : List Byte)
    (f : Option (List Byte)) (hf : GoodF tsize f) :
    count tsize (insert tsize key d f).2 =
      count tsize f +
        (if (insert tsize key d f).1 && !hasLiveKey tsize key f then 1 else 0) := by
  cases key with
  | none => simp [insert]
  | some k =>
    by_cases hk : 32 ≤ strlen k
    · rw [insert_bad_key tsize (some k) d f (Or.inr ⟨k, rfl, hk⟩)]
      simp
    · have hk' : strlen k < 32 := by omega
      rw [insert_good_key tsize k d f hk']
      cases f with
      | none =>
        show count tsize (some ([] ++ mkRecord tsize k d)) = _
        rw [List.nil_append, count_some_eq, liveSlots_mkRecord]
        simp [hasLiveKey, count]
      | some bs =>
        have hhas : hasLiveKey tsize (some k) (some bs) =
            (readSlots tsize bs).any
              (fun s => slotValid tsize s && (slotKey s == cstr k)) := rfl
        cases hany : (readSlots tsize bs).any
            (fun s => slotValid tsize s && (slotKey s == cstr k)) with
        | false =>
          show count tsize (some (((remove tsize (some k) (some bs)).2.getD []) ++
            mkRecord tsize k d)) = _
          rw [remove_not_found tsize k bs hany]
          show count tsize (some (bs ++ mkRecord tsize k d)) = _
          rw [count_some_eq, count_some_eq]
          rw [liveSlots_append tsize bs _ (hf.1 bs rfl), liveSlots_mkRecord]
          rw [List.length_append]
          rw [hhas, hany]
          simp
        | true =>
          show count tsize (some (((remove tsize (some k) (some bs)).2.getD []) ++
            mkRecord tsize k d)) = _
          rw [remove_found tsize k bs hany]
          show count tsize (some (((readSlots tsize bs).filter
            (fun s => slotValid tsize s && !(slotKey s == cstr k))).flatten ++
              mkRecord tsize k d)) = _
          rw [count_some_eq, count_some_eq]
          rw [liveSlots_append tsize _ _ (keep_flatten_mod tsize k bs), liveSlots_mkRecord]
          rw [List.length_append, liveSlots_flatten_keep, keep_eq_live_filter]
          rw [hhas, hany]
          have hsplit := length_filter_split (liveSlots tsize bs)
            (fun s => slotKey s == cstr k)
          have hone := live_match_one tsize k bs (hf.2 bs rfl) hany
          simp
          omega

theorem count_remove_delta (tsize : Nat) (key : Option (List Byte))
    (f : Option (List Byte)) (hf : GoodF tsize f) :
    count tsize (remove tsize key f).2 +
      (if (remove tsize key f).1 then 1 else 0) = count tsize f := by
  cases key with
  | none => rw [remove_none_key]; simp
  | some k =>
    cases f with
    | none => simp [remove, count]
    | some bs =>
      cases hany : (readSlots tsize bs).any
          (fun s => slotValid tsize s && (slotKey s == cstr k)) with
      | false =>
        rw [remove_not_found tsize k bs hany]
        simp
      | true =>
        have h1 := count_remove_found tsize k bs (hf.2 bs rfl) hany
        have h2 : (remove tsize (some k) (some bs)).1 = true := by
          rw [remove_fst, hany]
        rw [h2]
        simpa using h1

theorem runOps_invariant (tsize : Nat) : ∀ (ops : List Op) (f : Option (List Byte)),
    GoodF tsize f →
    GoodF tsize (runOps tsize ops f).1 ∧
    count tsize (runOps tsize ops f).1 + (runOps tsize ops f).2.2.2 =
      count tsize f + (runOps tsize ops f).2.1 := by
  intro ops
  induction ops with
  | nil =>
    intro f hf
    exact ⟨hf, rfl⟩
  | cons op rest ih =>
    intro f hf
    cases op with
    | ins key d =>
      have hgood : GoodF tsize (insert tsize key d f).2 := good_insert tsize key d f hf
      obtain ⟨hw_good, hw_eq⟩ := ih (insert tsize key d f).2 hgood
      have hunfold : runOps tsize (Op.ins key d :: rest) f =
          ((runOps tsize rest (insert tsize key d f).2).1,
           (runOps tsize rest (insert tsize key d f).2).2.1 +
             (if (insert tsize key d f).1 && !hasLiveKey tsize key f then 1 else 0),
           (runOps tsize rest (insert tsize key d f).2).2.2.1 +
             (if (insert tsize key d f).1 then 1 else 0),
           (runOps tsize rest (insert tsize key d f).2).2.2.2) := rfl
      rw [hunfold]
      refine ⟨hw_good, ?_⟩
      have hdelta := count_insert_delta tsize key d f hf
      cases hif : ((insert tsize key d f).1 && !hasLiveKey tsize key f) with
      | true =>
        rw [hif] at hdelta
        simp only [if_pos rfl] at hdelta ⊢
        omega
      | false =>
        rw [hif] at hdelta
        simp only [Bool.false_eq_true, if_false] at hdelta ⊢
        omega
    | rem key =>
      have hgood : GoodF tsize (remove tsize key f).2 := good_remove tsize key f hf
      obtain ⟨hw_good, hw_eq⟩ := ih (remove tsize key f).2 hgood
      have hunfold : runOps tsize (Op.rem key :: rest) f =
          ((runOps tsize rest (remove tsize key f).2).1,
           (runOps tsize rest (remove tsize key f).2).2.1,
           (runOps tsize rest (remove tsize key f).2).2.2.1,
           (runOps tsize rest (remove tsize key f).2).2.2.2 +
             (if (remove tsize key f).1 then 1 else 0)) := rfl
      rw [hunfold]
      refine ⟨hw_good, ?_⟩
      have hdelta := count_remove_delta tsize key f hf
      cases hif : (remove tsize key f).1 with
      | true =>
        rw [hif] at hdelta
        simp only [if_pos rfl] at hdelta ⊢
        omega
      | false =>
        rw [hif] at hdelta
        simp only [Bool.false_eq_true, if_false] at hdelta ⊢
        omega

/-! ### Claim theorems -/

/-- C1: on any slot-aligned store state, for every non-null key whose
C-string length is strictly below 32 and every payload of exactly `tsize`
bytes, `insert key value` succeeds (returns true) and an immediately
following `query key` returns exactly that value. -/
theorem C1_insert_then_query (tsize : Nat) (k d : List Byte) (f : Option (List Byte))
    (hal : AlignedF tsize f) (hk : strlen k < 32) (hd : d.length = tsize) :
    (insert tsize (some k) d f).1 = true ∧
      query tsize (some k) (insert tsize (some k) d f).2 = some d := by
  rw [insert_good_key tsize k d f hk]
  refine ⟨rfl, ?_⟩
  show query tsize (some k)
    (some (((remove tsize (some k) f).2.getD []) ++ mkRecord tsize k d)) = some d
  rw [query_live_eq]
  have hal1 := remove_getD_aligned tsize k f hal
  rw [liveSlots_append tsize _ _ hal1, liveSlots_mkRecord]
  have hnone : (liveSlots tsize ((remove tsize (some k) f).2.getD [])).find?
      (fun s => slotKey s == cstr k) = none :=
    List.find?_eq_none.mpr
      (fun s hs => by rw [remove_getD_no_match tsize k f s hs]; simp)
  rw [List.find?_append, hnone]
  rw [List.find?_cons_of_pos _
    (by rw [slotKey_mkRecord tsize k d hk]; exact beq_self_eq_true _)]
  simp [slotData_mkRecord tsize k d hd]

/-- C2: on a store whose file holds exactly one live (checksum-valid)
record for the key — the situation the at-most-one-live-record-per-key
invariant guarantees whenever the key is present — `remove key` returns
true, a subsequent `query key` fails, and `count` decreases by exactly
one. -/
theorem C2_remove_present (tsize : Nat) (k bs : List Byte)
    (hone : ((liveSlots tsize bs).filter (fun s => slotKey s == cstr k)).length = 1) :
    (remove tsize (some k) (some bs)).1 = true ∧
      query tsize (some k) (remove tsize (some k) (some bs)).2 = none ∧
      count tsize (remove tsize (some k) (some bs)).2 + 1 = count tsize (some bs) := by
  have hfound : (readSlots tsize bs).any
      (fun s => slotValid tsize s && (slotKey s == cstr k)) = true := by
    have hlen : 0 < ((liveSlots tsize bs).filter
        (fun s => slotKey s == cstr k)).length := by omega
    obtain ⟨s, hs⟩ := List.exists_mem_of_length_pos hlen
    have hmem := List.mem_of_mem_filter hs
    have hmatch := List.of_mem_filter hs
    apply List.any_eq_true.mpr
    refine ⟨s, List.mem_of_mem_filter hmem, ?_⟩
    rw [List.of_mem_filter hmem, hmatch]
    rfl
  rw [remove_found tsize k bs hfound]
  refine ⟨rfl, ?_, ?_⟩
  · show query tsize (some k) (some ((readSlots tsize bs).filter
      (fun s => slotValid tsize s && !(slotKey s == cstr k))).flatten) = none
    rw [query_live_eq, liveSlots_flatten_keep]
    rw [List.find?_eq_none.mpr
      (fun s hs => by rw [keep_no_match tsize k bs s hs]; simp)]
    rfl
  · show count tsize (some ((readSlots tsize bs).filter
      (fun s => slotValid tsize s && !(slotKey s == cstr k))).flatten) + 1 =
        count tsize (some bs)
    rw [count_some_eq, count_some_eq, liveSlots_flatten_keep, keep_eq_live_filter]
    rw [← hone]
    exact length_filter_split (liveSlots tsize bs) (fun s => slotKey s == cstr k)

/-- C4: `computeCRC` agrees, on every record image (of real bytes), with
the specification's reference CRC-8 — polynomial 0x07, initial value 0,
processed bit-by-bit most-significant-bit-first — taken over every byte
of the record except the trailing checksum byte. -/
theorem C4_computeCRC_eq_spec (tsize : Nat) (s : List Byte) (h : ∀ b ∈ s, b < 256) :
    computeCRC tsize s = crc8_spec (s.take (recSize tsize - 1)) := by
  unfold computeCRC crc8_spec
  exact crcRun_eq_spec _ 0 (by norm_num) (fun b hb => h b (List.mem_of_mem_take hb))

/-- C5: in every reachable store state, at most one live (checksum-valid)
record exists per key; reachability is closed under insert, remove and
clear, so every operation preserves the invariant. -/
theorem C5_at_most_one_live (tsize : Nat) (f : Option (List Byte)) (hr : Reachable tsize f)
    (bs : List Byte) (hf : f = some bs) (k : List Byte) :
    ((liveSlots tsize bs).filter (fun s => slotKey s == k)).length ≤ 1 := by
  have hnd := (good_reachable tsize f hr).2 bs hf
  unfold liveKeys at hnd
  exact nodup_map_filter_le_one (liveSlots tsize bs) slotKey hnd k

/-- C6: `remove key` on a store holding no live record for that key
returns false and leaves the file's observable contents unchanged. -/
theorem C6_remove_absent (tsize : Nat) (k : List Byte) (f : Option (List Byte))
    (h : ∀ s ∈ liveSlots tsize (f.getD []), (slotKey s == cstr k) = false) :
    remove tsize (some k) f = (false, f) := by
  cases f with
  | none => rfl
  | some bs =>
    apply remove_not_found
    apply List.any_eq_false.mpr
    intro s hs
    cases hv : slotValid tsize s with
    | false => simp [hv]
    | true =>
      have hlive : s ∈ liveSlots tsize bs := List.mem_filter.mpr ⟨hs, hv⟩
      have hm := h s hlive
      simp [hv, hm]

/-- C7: `insert` with a NULL key, or a key of C-string length 32 or more,
fails and performs no I/O: the store state is unchanged. -/
theorem C7_insert_invalid_key (tsize : Nat) (key : Option (List Byte)) (d : List Byte)
    (f : Option (List Byte))
    (h : key = none ∨ ∃ k, key = some k ∧ 32 ≤ strlen k) :
    insert tsize key d f = (false, f) :=
  insert_bad_key tsize key d f h

/-- C9: `selectAll` invokes the visitor exactly once per checksum-valid
record, with its key and value, in file order (the filtered slot sequence
of the file); a missing file yields no visits; and re-running the scan
without intervening mutation yields the identical visit sequence. -/
theorem C9_iterate_characterization (tsize : Nat) (bs : List Byte) :
    selectAll tsize (some bs) =
      ((readSlots tsize bs).filter (slotValid tsize)).map
        (fun s => (slotKey s, slotData tsize s)) ∧
    selectAll tsize none = [] ∧
    selectAll tsize (some bs) = selectAll tsize (some bs) :=
  ⟨selectAll_some_eq tsize bs, rfl, rfl⟩

/-- C10: `query` and `remove` both reject a NULL key before any file
access: they return false and the store state is unchanged, even though
the specification states this guard only for `insert`. -/
theorem C10_null_key_guard (tsize : Nat) (f : Option (List Byte)) :
    query tsize none f = none ∧ remove tsize none f = (false, f) :=
  ⟨query_none_key tsize f, remove_none_key tsize f⟩

/-- C3: flipping any single non-checksum byte of a stored live record's
slot to a different byte value makes exactly that record invisible to
query, count and iterate (its slot fails the CRC check and is treated as
absent), while every other record in the file stays visible with its
original key and value, in the original order. -/
theorem C3_single_byte_corruption (tsize : Nat) (a s b : List Byte) (i : Nat) (v : Byte)
    (hal : a.length % recSize tsize = 0) (hs : s.length = recSize tsize)
    (hi : i < recSize tsize - 1) (hbytes : ∀ x ∈ s, x < 256) (hv : v < 256)
    (hne : s.getD i 0 ≠ v) (hvalid : slotValid tsize s = true) :
    liveSlots tsize (a ++ s ++ b) = liveSlots tsize a ++ s :: liveSlots tsize b ∧
    liveSlots tsize (a ++ s.set i v ++ b) = liveSlots tsize a ++ liveSlots tsize b ∧
    count tsize (some (a ++ s.set i v ++ b)) + 1 = count tsize (some (a ++ s ++ b)) ∧
    selectAll tsize (some (a ++ s.set i v ++ b)) =
      (liveSlots tsize a ++ liveSlots tsize b).map
        (fun t => (slotKey t, slotData tsize t)) ∧
    ∀ q : List Byte, query tsize (some q) (some (a ++ s.set i v ++ b)) =
      ((liveSlots tsize a ++ liveSlots tsize b).find?
        (fun t => slotKey t == cstr q)).map (slotData tsize) := by
  have hset_len : (s.set i v).length = recSize tsize := by
    rw [List.length_set]
    exact hs
  have hinv := slotValid_set_false tsize s i v hs hi hbytes hv hne hvalid
  have hlive_orig : liveSlots tsize (a ++ s ++ b) =
      liveSlots tsize a ++ s :: liveSlots tsize b := by
    rw [List.append_assoc, liveSlots_append tsize a _ hal,
      liveSlots_cons_valid tsize s b hs hvalid]
  have hlive_corr : liveSlots tsize (a ++ s.set i v ++ b) =
      liveSlots tsize a ++ liveSlots tsize b := by
    rw [List.append_assoc, liveSlots_append tsize a _ hal,
      liveSlots_cons_invalid tsize _ b hset_len hinv]
  refine ⟨hlive_orig, hlive_corr, ?_, ?_, ?_⟩
  · rw [count_some_eq, count_some_eq, hlive_orig, hlive_corr]
    simp only [List.length_append, List.length_cons]
    omega
  · rw [selectAll_some_eq, hlive_corr]
  · intro q
    rw [query_live_eq, hlive_corr]

set_option maxRecDepth 100000 in
/-- C8 (counterexample): two successful inserts of the same key from an
empty store leave count() at 1, while successful inserts minus successful
explicit removes is 2 - 0 = 2, so the claimed equation fails whenever a
key is re-inserted. -/
theorem C8_counterexample :
    count 1 (runOps 1 [Op.ins (some [97]) [5], Op.ins (some [97]) [6]] none).1 = 1 ∧
    (runOps 1 [Op.ins (some [97]) [5], Op.ins (some [97]) [6]] none).2.2.1 = 2 ∧
    (runOps 1 [Op.ins (some [97]) [5], Op.ins (some [97]) [6]] none).2.2.2 = 0 ∧
    count 1 (runOps 1 [Op.ins (some [97]) [5], Op.ins (some [97]) [6]] none).1 ≠
      (runOps 1 [Op.ins (some [97]) [5], Op.ins (some [97]) [6]] none).2.2.1 -
        (runOps 1 [Op.ins (some [97]) [5], Op.ins (some [97]) [6]] none).2.2.2 := by
  decide

/-- C8 (amended): starting from an empty store, after any sequence of
insert and remove calls with no injected corruption, count() equals the
number of successful inserts whose key was not live at the time of the
call, minus the number of successful explicit remove calls. -/
theorem C8_count_balance (tsize : Nat) (ops : List Op) :
    count tsize (runOps tsize ops none).1 + (runOps tsize ops none).2.2.2 =
      (runOps tsize ops none).2.1 := by
  have h := (runOps_invariant tsize ops none (goodF_none tsize)).2
  simpa [count] using h

/-! ### Witnesses -/

set_option maxRecDepth 100000 in
theorem C1_witness :
    (insert 1 (some [97]) [5] none).1 = true ∧
      query 1 (some [97]) (insert 1 (some [97]) [5] none).2 = some [5] :=
  C1_insert_then_query 1 [97] [5] none (fun _ h => Option.noConfusion h)
    (by decide) (by decide)

set_option maxRecDepth 100000 in
theorem C2_witness :
    (remove 1 (some [97]) (some (mkRecord 1 [97] [5]))).1 = true ∧
      query 1 (some [97]) (remove 1 (some [97]) (some (mkRecord 1 [97] [5]))).2 = none ∧
      count 1 (remove 1 (some [97]) (some (mkRecord 1 [97] [5]))).2 + 1 =
        count 1 (some (mkRecord 1 [97] [5])) :=
  C2_remove_present 1 [97] (mkRecord 1 [97] [5]) (by decide)

set_option maxRecDepth 100000 in
theorem C3_witness :
    liveSlots 1 ([] ++ mkRecord 1 [97] [5] ++ []) =
      liveSlots 1 [] ++ mkRecord 1 [97] [5] :: liveSlots 1 [] ∧
    liveSlots 1 ([] ++ (mkRecord 1 [97] [5]).set 0 98 ++ []) =
      liveSlots 1 [] ++ liveSlots 1 [] ∧
    count 1 (some ([] ++ (mkRecord 1 [97] [5]).set 0 98 ++ [])) + 1 =
      count 1 (some ([] ++ mkRecord 1 [97] [5] ++ [])) ∧
    selectAll 1 (some ([] ++ (mkRecord 1 [97] [5]).set 0 98 ++ [])) =
      (liveSlots 1 [] ++ liveSlots 1 []).map (fun t => (slotKey t, slotData 1 t)) ∧
    ∀ q : List Byte, query 1 (some q) (some ([] ++ (mkRecord 1 [97] [5]).set 0 98 ++ [])) =
      ((liveSlots 1 [] ++ liveSlots 1 []).find?
        (fun t => slotKey t == cstr q)).map (slotData 1) :=
  C3_single_byte_corruption 1 [] (mkRecord 1 [97] [5]) [] 0 98 (by decide) (by decide)
    (by decide) (by decide) (by decide) (by decide) (by decide)

set_option maxRecDepth 100000 in
theorem C4_witness : computeCRC 1 [7, 200] = crc8_spec ([7, 200].take (recSize 1 - 1)) :=
  C4_computeCRC_eq_spec 1 [7, 200] (by decide)

set_option maxRecDepth 100000 in
theorem C5_witness :
    ((liveSlots 1 (mkRecord 1 [97] [5])).filter (fun s => slotKey s == [97])).length ≤ 1 :=
  C5_at_most_one_live 1 (insert 1 (some [97]) [5] none).2
    (Reachable.insertStep (some [97]) [5] Reachable.empty) (mkRecord 1 [97] [5]) rfl [97]

set_option maxRecDepth 100000 in
theorem C6_witness :
    remove 1 (some [98]) (some (mkRecord 1 [97] [5])) =
      (false, some (mkRecord 1 [97] [5])) :=
  C6_remove_absent 1 [98] (some (mkRecord 1 [97] [5])) (by decide)

set_option maxRecDepth 100000 in
theorem C7_witness :
    insert 1 (some (List.replicate 32 1)) [5] none = (false, none) :=
  C7_insert_invalid_key 1 (some (List.replicate 32 1)) [5] none
    (Or.inr ⟨List.replicate 32 1, rfl, by decide⟩)

end RecordDB
